import Mathlib

/-!
Verification of the two-phase external shuffle engine in `src/shuffle.rs`.

Embedding conventions:

* A file on disk is a `FileData`: its on-disk byte size (`metadata.len()`),
  the lines obtained by reading it directly (`plainLines`), and the lines
  obtained by reading it through the streaming gzip decoder (`gunzipLines`,
  `none` when the bytes are not a valid gzip stream).  The filesystem is a
  total function `String → FileData`; paths are plain strings.
* The pseudo-random generators (`StdRng` and the `rand` crate draws) are
  modelled as infinite draw streams `Nat → Nat`: the k-th call to
  `random_range(0..n)` yields `stream k % n`.  All claims proved here are
  independent of the distribution of the draws.
* Temporary bucket storage is modelled by content, indexed by bucket number:
  `phase_1_distribute` returns one `Option (List String)` per bucket, `none`
  meaning the bucket's temp file was never created (the Rust code only
  computes the temp *paths* up front, lines 171-176; `flush_line_buffer`,
  lines 126-139, opens with `create(true).append(true)` only the files of
  buckets that actually have buffered lines).
* Rust panics (the `usize` division by zero in the bucket-count expression
  when `max_size_mb = 0`, line 167) are a distinct outcome
  `RunResult.panicked`, separate from returned I/O errors.
* `usize`/`u64` overflow is not otherwise modelled; sizes are `Nat`.
-/

/-- One input file as the engine observes it: its on-disk size in bytes
(`tokio::fs::metadata(..).len()`), the decoded lines when read directly, and
the decoded lines when read through `GzipDecoder` (`none` = decode failure). -/
structure FileData where
  size : Nat
  plainLines : List String
  gunzipLines : Option (List String)

/-- `ShuffleConfig` from src/shuffle.rs lines 12-19.  `input_files` are paths
into the modelled filesystem. -/
structure ShuffleConfig where
  input_files : List String
  output_dir : String
  output_name : String
  max_size_mb : Nat
  seed : Option Nat

/-- Byte-wise lexicographic comparison of char lists; models the ordering
used by `Vec::<PathBuf>::sort()` on the (opaque) path strings, line 193. -/
def lexLe : List Char → List Char → Bool
  | [], _ => true
  | _ :: _, [] => false
  | c :: cs, d :: ds =>
    if c.toNat < d.toNat then true
    else if d.toNat < c.toNat then false
    else lexLe cs ds

/-- `sorted_input_files.sort()` (src/shuffle.rs lines 192-193), modelled as a
stable sort by the lexicographic path order. -/
def sortPaths (ps : List String) : List String :=
  List.insertionSort (fun a b => lexLe a.data b.data = true) ps

/-- The last path component (what `Path::file_name` looks at): the characters
after the final path separator. -/
def lastComponent (p : String) : String :=
  String.mk ((p.data.reverse.takeWhile (fun c => c ≠ '/')).reverse)

/-- Rust `Path::extension()`: the suffix of the file name after its last
dot, provided that dot is not the leading character; `none` for names
without a dot, dot-leading names such as `".gz"`, and the special names
`"."` and `".."` (whose `file_name()` is `None`). -/
def fileExtension (p : String) : Option String :=
  let name := lastComponent p
  if name = "." ∨ name = ".." then none
  else
    let cs := name.data
    let extRev := cs.reverse.takeWhile (fun c => c ≠ '.')
    if extRev.length + 1 < cs.length then some (String.mk extRev.reverse) else none

/-- The compressed-input test of src/shuffle.rs line 207:
`input_file.extension().and_then(|s| s.to_str()) == Some("gz")`. -/
def usesGzip (p : String) : Bool := fileExtension p == some "gz"

/-- The Line Source (src/shuffle.rs lines 203-213): open the file and decode
its lines, through the gzip decoder exactly when `usesGzip` holds. -/
def readLines (fs : String → FileData) (p : String) : Option (List String) :=
  if usesGzip p then (fs p).gunzipLines else some (fs p).plainLines

/-- The keep-test of src/shuffle.rs lines 225 and 279:
`!line.trim().is_empty()`, i.e. the line has a non-whitespace character. -/
def nonblank (s : String) : Bool := !(s.data.all Char.isWhitespace)

/-- Fueled chunking; `chunksOf` below always supplies enough fuel. -/
def chunksFuel {α : Type} (k : Nat) : Nat → List α → List (List α)
  | _, [] => []
  | 0, xs => [xs]
  | fuel+1, xs => xs.take k :: chunksFuel k fuel (xs.drop k)

/-- `slice::chunks(k)`: split a list into consecutive chunks of size `k`
(last one possibly shorter); used for the input batches of line 196 and the
writer batches of line 126. -/
def chunksOf {α : Type} (k : Nat) (xs : List α) : List (List α) :=
  chunksFuel k xs.length xs

/-- One round-robin pass (src/shuffle.rs lines 219-246): read one line from
each still-active reader, in order. -/
def rrPass (rs : List (List String)) : List String := rs.filterMap List.head?

/-- State of the readers after one round-robin pass: each active reader has
yielded its head; exhausted readers leave the active set. -/
def rrNext (rs : List (List String)) : List (List String) :=
  (rs.map List.tail).filter (fun r => !r.isEmpty)

/-- Total number of lines still unread across a batch of readers. -/
def totalLen (rs : List (List String)) : Nat := (rs.map List.length).sum

/-- Fueled round-robin interleaving; `roundRobin` supplies fuel `totalLen`. -/
def roundRobinFuel : Nat → List (List String) → List String
  | 0, _ => []
  | fuel+1, rs =>
    let act := rs.filter (fun r => !r.isEmpty)
    if act.isEmpty then [] else rrPass act ++ roundRobinFuel fuel (rrNext act)

/-- The while-loop of src/shuffle.rs lines 216-246: interleave the readers of
one batch round-robin until all are exhausted, yielding lines in arrival
order. -/
def roundRobin (rs : List (List String)) : List String :=
  roundRobinFuel (totalLen rs) rs

/-- The lines assigned to bucket `i`, in assignment order.  This is exactly
the content of bucket `i`'s temp file after all flushes: `flush_line_buffer`
(lines 108-159) groups the buffer by bucket preserving order and appends, so
across flushes the file holds the bucket's lines in assignment order. -/
def bucketLines (assigned : List (Nat × String)) (i : Nat) : List String :=
  assigned.filterMap (fun p => if p.1 = i then some p.2 else none)

/-- `MAX_OPEN_INPUT_FILES = 16` (src/shuffle.rs line 179). -/
def MAX_OPEN_INPUT_FILES : Nat := 16

/-- The sequence in which lines arrive during Phase 1 (src/shuffle.rs lines
196-246): the sorted inputs are processed in batches of 16 open readers,
each batch interleaved round-robin. -/
def phase1Arrival (fs : String → FileData) (paths : List String) : List String :=
  ((chunksOf MAX_OPEN_INPUT_FILES
    ((sortPaths paths).map (fun p => (readLines fs p).getD []))).map roundRobin).flatten

/-- The arriving lines that survive the blank filter of line 225, in order;
the k-th entry consumes the k-th Phase-1 RNG draw. -/
def phase1Kept (fs : String → FileData) (paths : List String) : List String :=
  (phase1Arrival fs paths).filter nonblank

/-- The bucket assignment of line 227: the k-th kept line goes to bucket
`rng k % n`. -/
def phase1Assigned (rng : Nat → Nat) (fs : String → FileData)
    (paths : List String) (n : Nat) : List (Nat × String) :=
  (phase1Kept fs paths).enum.map (fun kl => (rng kl.1 % n, kl.2))

/-- Phase 1 (src/shuffle.rs lines 161-257) after the bucket-count computation
(lines 164-167, modelled separately by `estimated_num_files`): sort the input
paths, read every input in batches of 16 interleaved round-robin, drop
blank-after-trim lines, draw a bucket `rng k % n` for the k-th kept line
(line 227), and persist each bucket's lines.  A bucket that received no line
has no temp file (`none`).  If some input cannot be decoded the phase returns
the fatal read error. -/
def phase_1_distribute (rng : Nat → Nat) (fs : String → FileData)
    (paths : List String) (n : Nat) : Except String (List (Option (List String))) :=
  if (sortPaths paths).all (fun p => (readLines fs p).isSome) then
    Except.ok ((List.range n).map (fun i =>
      if (bucketLines (phase1Assigned rng fs paths n) i).isEmpty then none
      else some (bucketLines (phase1Assigned rng fs paths n) i)))
  else Except.error "failed to read an input file"

/-- Fueled in-place shuffle; models `rand::seq::SliceRandom::shuffle` (an
external crate call, line 290) as the permutation drawn from the RNG stream:
the t-th step moves the element at index `rng (off+t) % remaining` to the
front of the remaining suffix.  Consumes exactly `l.length` draws. -/
def shuffleFuel (rng : Nat → Nat) : Nat → Nat → List String → List String
  | _, 0, l => l
  | off, fuel+1, l =>
    match l with
    | [] => []
    | a :: rest =>
      let k := rng off % (a :: rest).length
      (a :: rest).getD k a :: shuffleFuel rng (off+1) fuel ((a :: rest).eraseIdx k)

/-- `lines.shuffle(&mut rng)` of src/shuffle.rs line 290. -/
def shuffleLines (rng : Nat → Nat) (off : Nat) (l : List String) : List String :=
  shuffleFuel rng off l.length l

/-- Rust's `{:04}` formatting: decimal, left-padded with zeros to width 4. -/
def pad4 (n : Nat) : String :=
  let s := toString n
  String.mk (List.replicate (4 - s.length) '0') ++ s

/-- `Path::join` on the output directory. -/
def joinPath (dir name : String) : String := dir ++ "/" ++ name

/-- Temp-file path for bucket `i` (src/shuffle.rs line 174):
`.{output_name}_temp_{i:04}.jsonl` inside the output directory. -/
def tempPath (dir nm : String) (i : Nat) : String :=
  joinPath dir ("." ++ nm ++ "_temp_" ++ pad4 i ++ ".jsonl")

/-- Output filename rule of src/shuffle.rs lines 293-297: bare base name when
the planned bucket count is 1, else `_part_` with the 1-based zero-padded
original bucket index. -/
def outputFileName (n : Nat) (nm : String) (i : Nat) : String :=
  if n = 1 then nm ++ ".jsonl" else nm ++ "_part_" ++ pad4 (i+1) ++ ".jsonl"

/-- Observable filesystem events of Phase 2, per bucket index. -/
inductive Ev where
  | opened : Nat → Ev
  | openFailed : Nat → Ev
  | wrote : Nat → Ev
  | flushed : Nat → Ev
  | deleted : Nat → Ev
deriving DecidableEq

/-- Result of Phase 2: the output files written so far (path and contents,
in bucket order), the event trace, and the error that aborted the loop, if
any. -/
structure P2Out where
  outputs : List (String × List String)
  trace : List Ev
  err : Option String

/-- The per-bucket loop of Phase 2 (src/shuffle.rs lines 271-315) over the
remaining `(bucket index, temp file content)` pairs.  `File::open` on a
never-created temp file fails with NotFound and aborts the run (line 274).
An existing-but-all-blank bucket is skipped: no output, and also no deletion
(the `continue` at line 286 skips the `remove_file` at line 314).  Otherwise
the bucket is shuffled, written, flushed, and only then its temp file is
deleted. -/
def phase2Go (rng : Nat → Nat) (n : Nat) (dir nm : String) :
    Nat → List (Nat × Option (List String)) → P2Out
  | _, [] => ⟨[], [], none⟩
  | _, (i, none) :: _ =>
    ⟨[], [Ev.openFailed i], some ("No such file or directory: " ++ tempPath dir nm i)⟩
  | off, (i, some ls) :: rest =>
    let kept := ls.filter nonblank
    if kept.isEmpty then
      let r := phase2Go rng n dir nm off rest
      ⟨r.outputs, Ev.opened i :: r.trace, r.err⟩
    else
      let out := (joinPath dir (outputFileName n nm i), shuffleLines rng off kept)
      let r := phase2Go rng n dir nm (off + kept.length) rest
      ⟨out :: r.outputs, Ev.opened i :: Ev.wrote i :: Ev.flushed i :: Ev.deleted i :: r.trace, r.err⟩

/-- Phase 2 (src/shuffle.rs lines 259-320): process every bucket in ascending
index order.  The naming rule reads the *planned* bucket count
`temp_files.len()` (line 293). -/
def phase_2_shuffle_and_write (rng : Nat → Nat) (dir nm : String)
    (temps : List (Option (List String))) : P2Out :=
  phase2Go rng temps.length dir nm 0 temps.enum

/-- `estimate_total_input_size` (src/shuffle.rs lines 322-329): sum of the
on-disk byte sizes of the input files, in the configured order. -/
def estimate_total_input_size (fs : String → FileData) (paths : List String) : Nat :=
  paths.foldl (fun acc p => acc + (fs p).size) 0

/-- `max_size_bytes = config.max_size_mb * 1024 * 1024` (line 166). -/
def max_size_bytes (mb : Nat) : Nat := mb * 1024 * 1024

/-- The bucket-count expression of src/shuffle.rs line 167:
`((total_input_size + max_size_bytes - 1) / max_size_bytes).max(1)`.
Only meaningful for `m ≠ 0`; `shuffle_jsonl` models the `m = 0` panic. -/
def estimated_num_files (total m : Nat) : Nat := Nat.max ((total + m - 1) / m) 1

/-- Outcome of a run: a Rust panic, a returned `io::Error`, or the list of
output files (paths with their written lines). -/
inductive RunResult where
  | panicked : RunResult
  | ioError : String → RunResult
  | ok : List (String × List String) → RunResult
deriving DecidableEq

/-- `shuffle_jsonl` (src/shuffle.rs lines 66-74): Phase 1 then Phase 2,
taking the two phases' RNG draw streams as parameters.  When
`max_size_mb = 0` the bucket-count expression divides by zero and the
process panics before any file is touched. -/
def shuffle_jsonl (rng1 rng2 : Nat → Nat) (fs : String → FileData)
    (cfg : ShuffleConfig) : RunResult :=
  let total := estimate_total_input_size fs cfg.input_files
  let m := max_size_bytes cfg.max_size_mb
  if m = 0 then RunResult.panicked
  else
    let n := estimated_num_files total m
    match phase_1_distribute rng1 fs cfg.input_files n with
    | Except.error e => RunResult.ioError e
    | Except.ok temps =>
      let r := phase_2_shuffle_and_write rng2 cfg.output_dir cfg.output_name temps
      match r.err with
      | some e => RunResult.ioError e
      | none => RunResult.ok r.outputs

/-- Size of the `u64` value space. -/
def u64Size : Nat := 2 ^ 64

/-- Phase 2's seed derivation, src/shuffle.rs line 267:
`seed.wrapping_add(1)` on `u64`. -/
def phase2Seed (s : Nat) : Nat := (s + 1) % u64Size

/-- The RNG policy of lines 184-187 and 266-269: with a configured seed both
phases use `StdRng::seed_from_u64`, phase 1 on the seed itself and phase 2 on
`seed.wrapping_add(1)`; without a seed each phase draws a fresh entropy
stream.  `stdRng s` is the draw stream of `StdRng::seed_from_u64(s)`. -/
def runWithConfig (stdRng : Nat → Nat → Nat) (entropy1 entropy2 : Nat → Nat)
    (fs : String → FileData) (cfg : ShuffleConfig) : RunResult :=
  match cfg.seed with
  | some s => shuffle_jsonl (stdRng (s % u64Size)) (stdRng (phase2Seed s)) fs cfg
  | none => shuffle_jsonl entropy1 entropy2 fs cfg

/-- Checks that in a trace no `deleted i` event occurs before the first
`flushed i` event. -/
def delAfterFlush (i : Nat) : List Ev → Bool
  | [] => true
  | Ev.flushed j :: rest => if j = i then true else delAfterFlush i rest
  | Ev.deleted j :: rest => if j = i then false else delAfterFlush i rest
  | _ :: rest => delAfterFlush i rest

/-- Modelled from the spec (§6): the compressed-file suffix the spec
describes, the fixed literal gzip extension appended to the record-file
extension, i.e. the claim's detection predicate "file name ends in
`.jsonl.gz`". -/
def specGzDetect (p : String) : Bool := ".jsonl.gz".data.isSuffixOf p.data

/-- A constant-zero draw stream, used for concrete runs. -/
def rngZero : Nat → Nat := fun _ => 0

/-- Filesystem with a single 2,000,000-byte file of one non-blank line
(e.g. a file padded with blank lines): forces 2 buckets with
`max_size_mb = 1` while only 1 line exists. -/
def exFs : String → FileData :=
  fun _ => { size := 2000000, plainLines := ["x"], gunzipLines := none }

/-- Configuration splitting `exFs`'s single input into 2 buckets. -/
def exCfg : ShuffleConfig :=
  { input_files := ["a.jsonl"], output_dir := "out", output_name := "shuffled",
    max_size_mb := 1, seed := some 7 }

/-- Filesystem with a single tiny file of two lines: a single bucket. -/
def exFsSmall : String → FileData :=
  fun _ => { size := 100, plainLines := ["x", "y"], gunzipLines := none }

/-- Configuration for the single-bucket run over `exFsSmall`. -/
def exCfgSmall : ShuffleConfig :=
  { input_files := ["a.jsonl"], output_dir := "out", output_name := "shuffled",
    max_size_mb := 1, seed := some 7 }

theorem lexLe_total : ∀ a b : List Char, lexLe a b = true ∨ lexLe b a = true := by
  intro a
  induction a with
  | nil => intro b; left; rfl
  | cons c cs ih =>
    intro b
    cases b with
    | nil => right; rfl
    | cons d ds =>
      by_cases h1 : c.toNat < d.toNat
      · left; simp [lexLe, h1]
      · by_cases h2 : d.toNat < c.toNat
        · right; simp [lexLe, h2]
        · have he : d.toNat = c.toNat := by omega
          rcases ih ds with h | h
          · left; simp [lexLe, h1, h2, h]
          · right; simp [lexLe, h1, h2, he, h]

theorem lexLe_trans : ∀ a b c : List Char,
    lexLe a b = true → lexLe b c = true → lexLe a c = true := by
  intro a
  induction a with
  | nil => intro b c _ _; rfl
  | cons x xs ih =>
    intro b c hab hbc
    cases b with
    | nil => simp [lexLe] at hab
    | cons y ys =>
      cases c with
      | nil => simp [lexLe] at hbc
      | cons z zs =>
        simp only [lexLe] at hab hbc ⊢
        rcases Nat.lt_trichotomy x.toNat y.toNat with hxy | hxy | hxy
        · rcases Nat.lt_trichotomy y.toNat z.toNat with hyz | hyz | hyz
          · rw [if_pos (show x.toNat < z.toNat by omega)]
          · rw [if_pos (show x.toNat < z.toNat by omega)]
          · rw [if_neg (show ¬ y.toNat < z.toNat by omega),
              if_pos (show z.toNat < y.toNat by omega)] at hbc
            simp at hbc
        · rcases Nat.lt_trichotomy y.toNat z.toNat with hyz | hyz | hyz
          · rw [if_pos (show x.toNat < z.toNat by omega)]
          · rw [if_neg (show ¬ x.toNat < z.toNat by omega),
              if_neg (show ¬ z.toNat < x.toNat by omega)]
            rw [if_neg (show ¬ x.toNat < y.toNat by omega),
              if_neg (show ¬ y.toNat < x.toNat by omega)] at hab
            rw [if_neg (show ¬ y.toNat < z.toNat by omega),
              if_neg (show ¬ z.toNat < y.toNat by omega)] at hbc
            exact ih ys zs hab hbc
          · rw [if_neg (show ¬ y.toNat < z.toNat by omega),
              if_pos (show z.toNat < y.toNat by omega)] at hbc
            simp at hbc
        · rw [if_neg (show ¬ x.toNat < y.toNat by omega),
            if_pos (show y.toNat < x.toNat by omega)] at hab
          simp at hab

theorem lexLe_antisymm : ∀ a b : List Char,
    lexLe a b = true → lexLe b a = true → a = b := by
  intro a
  induction a with
  | nil =>
    intro b _ hba
    cases b with
    | nil => rfl
    | cons d ds => simp [lexLe] at hba
  | cons c cs ih =>
    intro b hab hba
    cases b with
    | nil => simp [lexLe] at hab
    | cons d ds =>
      by_cases h1 : c.toNat < d.toNat
      · simp only [lexLe, if_neg (by omega : ¬ d.toNat < c.toNat),
          if_pos h1] at hab hba
        exact absurd hba (by simp [if_neg (by omega : ¬ d.toNat < c.toNat), h1])
      · by_cases h2 : d.toNat < c.toNat
        · simp only [lexLe, if_pos h2, if_neg h1] at hab
          exact absurd hab (by simp)
        · have hn : c.toNat = d.toNat := by omega
          have hcd : c = d := by
            apply Char.ext
            exact UInt32.ext_iff.mpr hn
          simp only [lexLe, if_neg h1, if_neg h2] at hab hba
          rw [hcd, ih ds hab hba]

theorem sortPaths_perm (ps : List String) : List.Perm (sortPaths ps) ps :=
  List.perm_insertionSort _ ps

theorem sortPaths_eq_of_perm (ps qs : List String) (h : List.Perm ps qs) :
    sortPaths ps = sortPaths qs := by
  have hr : ∀ a b : String, (fun a b : String => lexLe a.data b.data = true) a b →
      (fun a b : String => lexLe a.data b.data = true) b a → a = b := by
    intro a b hab hba
    have := lexLe_antisymm a.data b.data hab hba
    exact String.ext this
  haveI inst1 : IsAntisymm String (fun a b : String => lexLe a.data b.data = true) := ⟨hr⟩
  haveI inst2 : IsTotal String (fun a b : String => lexLe a.data b.data = true) :=
    ⟨fun a b => lexLe_total a.data b.data⟩
  haveI inst3 : IsTrans String (fun a b : String => lexLe a.data b.data = true) :=
    ⟨fun a b c => lexLe_trans a.data b.data c.data⟩
  exact List.eq_of_perm_of_sorted
    (((sortPaths_perm ps).trans h).trans (sortPaths_perm qs).symm)
    (List.sorted_insertionSort _ ps)
    (List.sorted_insertionSort _ qs)

theorem flatten_chunksFuel {α : Type} (k : Nat) :
    ∀ (fuel : Nat) (xs : List α), (chunksFuel k fuel xs).flatten = xs := by
  intro fuel
  induction fuel with
  | zero =>
    intro xs
    cases xs with
    | nil => rfl
    | cons a as => simp [chunksFuel]
  | succ fuel ih =>
    intro xs
    cases xs with
    | nil => rfl
    | cons a as =>
      simp only [chunksFuel, List.flatten_cons, ih]
      exact List.take_append_drop k (a :: as)

theorem flatten_chunksOf {α : Type} (k : Nat) (xs : List α) :
    (chunksOf k xs).flatten = xs :=
  flatten_chunksFuel k xs.length xs

theorem flatten_filter_nonempty (rs : List (List String)) :
    (rs.filter (fun r => !r.isEmpty)).flatten = rs.flatten := by
  induction rs with
  | nil => rfl
  | cons r rest ih =>
    cases r with
    | nil => simpa [List.filter] using ih
    | cons a t => simp [List.filter, ih]

theorem rrPass_rrNext_perm :
    ∀ rs : List (List String), (∀ r ∈ rs, r ≠ []) →
      List.Perm (rrPass rs ++ (rs.map List.tail).flatten) rs.flatten := by
  intro rs
  induction rs with
  | nil => intro _; simp [rrPass]
  | cons r rest ih =>
    intro hmem
    have hr : r ≠ [] := hmem r (by simp)
    cases r with
    | nil => exact absurd rfl hr
    | cons a t =>
      have ih' := ih (fun r hr => hmem r (by simp [hr]))
      simp only [rrPass, List.filterMap_cons, List.head?_cons, List.map_cons,
        List.tail_cons, List.flatten_cons]
      have step1 : List.Perm (List.filterMap List.head? rest ++ (t ++ (rest.map List.tail).flatten))
          (t ++ (List.filterMap List.head? rest ++ (rest.map List.tail).flatten)) := by
        rw [← List.append_assoc, ← List.append_assoc]
        exact (List.perm_append_comm.append_right _)
      have step2 : List.Perm (t ++ (List.filterMap List.head? rest ++ (rest.map List.tail).flatten))
          (t ++ rest.flatten) := List.Perm.append_left t ih'
      exact List.Perm.cons a (step1.trans step2)

theorem totalLen_filter_le (p : List String → Bool) (rs : List (List String)) :
    totalLen (rs.filter p) ≤ totalLen rs := by
  induction rs with
  | nil => simp [totalLen]
  | cons r rest ih =>
    by_cases h : p r
    · simpa [totalLen, List.filter, h] using Nat.add_le_add_left ih r.length
    · simp only [totalLen, List.filter, h, List.map_cons, List.sum_cons]
      calc totalLen (rest.filter p) ≤ totalLen rest := ih
        _ ≤ r.length + totalLen rest := Nat.le_add_left _ _

theorem totalLen_map_tail :
    ∀ rs : List (List String), (∀ r ∈ rs, r ≠ []) →
      totalLen (rs.map List.tail) + rs.length = totalLen rs := by
  intro rs
  induction rs with
  | nil => intro _; rfl
  | cons r rest ih =>
    intro hmem
    have hr : r ≠ [] := hmem r (by simp)
    have hlen : 1 ≤ r.length := by
      cases r with
      | nil => exact absurd rfl hr
      | cons a t => simp
    have ih' := ih (fun r hr => hmem r (by simp [hr]))
    have htail : r.tail.length = r.length - 1 := List.length_tail r
    have h1 : totalLen ((r :: rest).map List.tail) =
        r.tail.length + totalLen (rest.map List.tail) := by
      simp [totalLen]
    have h2 : totalLen (r :: rest) = r.length + totalLen rest := by
      simp [totalLen]
    have h3 : (r :: rest).length = rest.length + 1 := rfl
    omega

theorem roundRobinFuel_perm :
    ∀ (fuel : Nat) (rs : List (List String)), totalLen rs ≤ fuel →
      List.Perm (roundRobinFuel fuel rs) rs.flatten := by
  intro fuel
  induction fuel with
  | zero =>
    intro rs h
    have hlen : rs.flatten.length = 0 := by
      rw [List.length_flatten]
      exact Nat.le_zero.mp h
    rw [List.eq_nil_of_length_eq_zero hlen]
    exact List.Perm.refl _
  | succ fuel ih =>
    intro rs h
    show List.Perm
      (let act := rs.filter (fun r => !r.isEmpty)
       if act.isEmpty then [] else rrPass act ++ roundRobinFuel fuel (rrNext act))
      rs.flatten
    set act := rs.filter (fun r => !r.isEmpty) with hact
    by_cases hemp : act.isEmpty
    · simp only [hemp, if_true]
      have : act.flatten = rs.flatten := flatten_filter_nonempty rs
      rw [List.isEmpty_iff] at hemp
      rw [← this, hemp]
      exact List.Perm.refl _
    · simp only [hemp, if_false]
      have hallne : ∀ r ∈ act, r ≠ [] := by
        intro r hr
        have := List.of_mem_filter hr
        simpa [List.isEmpty_iff] using this
      have hactne : act ≠ [] := by
        intro hnil
        rw [hnil] at hemp
        exact hemp rfl
      have hlt : totalLen (rrNext act) < totalLen act := by
        have hfil : totalLen (rrNext act) ≤ totalLen (act.map List.tail) :=
          totalLen_filter_le _ _
        have heq := totalLen_map_tail act hallne
        have hpos : 1 ≤ act.length := List.length_pos.mpr hactne
        omega
      have hle : totalLen act ≤ totalLen rs := totalLen_filter_le _ _
      have ihx := ih (rrNext act) (by omega)
      have hflat : (rrNext act).flatten = (act.map List.tail).flatten :=
        flatten_filter_nonempty _
      have step1 : List.Perm (rrPass act ++ roundRobinFuel fuel (rrNext act))
          (rrPass act ++ (act.map List.tail).flatten) := by
        apply List.Perm.append_left
        rw [← hflat]
        exact ihx
      have step2 : List.Perm (rrPass act ++ (act.map List.tail).flatten) act.flatten :=
        rrPass_rrNext_perm act hallne
      have step3 : act.flatten = rs.flatten := flatten_filter_nonempty rs
      rw [← step3]
      exact step1.trans step2

theorem roundRobin_perm (rs : List (List String)) :
    List.Perm (roundRobin rs) rs.flatten :=
  roundRobinFuel_perm (totalLen rs) rs (Nat.le_refl _)

theorem getD_cons_eraseIdx_perm {α : Type} (d : α) :
    ∀ (l : List α) (k : Nat), k < l.length →
      List.Perm (l.getD k d :: l.eraseIdx k) l := by
  intro l
  induction l with
  | nil => intro k h; simp at h
  | cons a as ih =>
    intro k h
    cases k with
    | zero => simp
    | succ k =>
      have hk : k < as.length := by simpa using h
      have ihx := ih k hk
      simp only [List.getD_cons_succ, List.eraseIdx_cons_succ]
      exact (List.Perm.swap a (as.getD k d) _).trans (List.Perm.cons a ihx)

theorem shuffleFuel_perm (rng : Nat → Nat) :
    ∀ (fuel off : Nat) (l : List String), List.Perm (shuffleFuel rng off fuel l) l := by
  intro fuel
  induction fuel with
  | zero => intro off l; exact List.Perm.refl _
  | succ fuel ih =>
    intro off l
    cases l with
    | nil => exact List.Perm.refl _
    | cons a rest =>
      show List.Perm
        ((a :: rest).getD (rng off % (a :: rest).length) a ::
          shuffleFuel rng (off+1) fuel ((a :: rest).eraseIdx (rng off % (a :: rest).length)))
        (a :: rest)
      have hk : rng off % (a :: rest).length < (a :: rest).length :=
        Nat.mod_lt _ (by simp)
      exact (List.Perm.cons _ (ih (off+1) _)).trans
        (getD_cons_eraseIdx_perm a (a :: rest) _ hk)

theorem shuffleLines_perm (rng : Nat → Nat) (off : Nat) (l : List String) :
    List.Perm (shuffleLines rng off l) l :=
  shuffleFuel_perm rng l.length off l

theorem flatten_map_update_perm {α : Type} (x : α) (g : Nat → List α) (i0 : Nat) :
    ∀ n : Nat, i0 < n →
      List.Perm (((List.range n).map (fun i => if i0 = i then x :: g i else g i)).flatten)
        (x :: ((List.range n).map g).flatten) := by
  intro n
  induction n with
  | zero => intro h; omega
  | succ n ih =>
    intro h
    rw [List.range_succ, List.map_append, List.map_append, List.flatten_append,
      List.flatten_append]
    by_cases hi : i0 = n
    · have hmap : (List.range n).map (fun i => if i0 = i then x :: g i else g i) =
          (List.range n).map g := by
        apply List.map_congr_left
        intro i hmem
        have : i < n := List.mem_range.mp hmem
        rw [if_neg (by omega)]
      rw [hmap, hi]
      simp only [List.map_cons, List.map_nil, List.flatten_cons, List.flatten_nil,
        if_pos rfl]
      have hm : List.Perm (((List.range n).map g).flatten ++ x :: (g n ++ []))
          (x :: (((List.range n).map g).flatten ++ (g n ++ []))) := List.perm_middle
      simp only [List.append_nil] at hm ⊢
      exact hm
    · have ihx := ih (by omega)
      simp only [List.map_cons, List.map_nil, List.flatten_cons, List.flatten_nil,
        if_neg hi]
      have step := ihx.append_right (g n ++ [])
      refine step.trans ?_
      simp

theorem flatten_range_bucketLines_perm :
    ∀ (assigned : List (Nat × String)) (n : Nat), (∀ p ∈ assigned, p.1 < n) →
      List.Perm (((List.range n).map (bucketLines assigned)).flatten)
        (assigned.map Prod.snd) := by
  intro assigned
  induction assigned with
  | nil =>
    intro n _
    have : ∀ i ∈ List.range n, bucketLines [] i = [] := by
      intro i _
      rfl
    rw [List.map_congr_left this]
    simp
  | cons p rest ih =>
    intro n hmem
    have hp : p.1 < n := hmem p (by simp)
    have hrest : ∀ q ∈ rest, q.1 < n := fun q hq => hmem q (by simp [hq])
    have hbk : ∀ i, bucketLines (p :: rest) i =
        if p.1 = i then p.2 :: bucketLines rest i else bucketLines rest i := by
      intro i
      simp only [bucketLines, List.filterMap_cons]
      by_cases hpi : p.1 = i
      · rw [if_pos hpi, if_pos hpi]
      · rw [if_neg hpi, if_neg hpi]
    have hmapeq : (List.range n).map (bucketLines (p :: rest)) =
        (List.range n).map (fun i => if p.1 = i then p.2 :: bucketLines rest i
          else bucketLines rest i) :=
      List.map_congr_left (fun i _ => hbk i)
    rw [hmapeq, List.map_cons]
    exact (flatten_map_update_perm p.2 (bucketLines rest) p.1 n hp).trans
      (List.Perm.cons p.2 (ih n hrest))

theorem phase2Go_err_none_all_some (rng : Nat → Nat) (n : Nat) (dir nm : String) :
    ∀ (pairs : List (Nat × Option (List String))) (off : Nat),
      (phase2Go rng n dir nm off pairs).err = none →
      ∀ q ∈ pairs, q.2.isSome = true := by
  intro pairs
  induction pairs with
  | nil => intro off _ q hq; simp at hq
  | cons hd rest ih =>
    intro off herr q hq
    obtain ⟨i, o⟩ := hd
    cases o with
    | none => simp [phase2Go] at herr
    | some ls =>
      by_cases hk : (ls.filter nonblank).isEmpty
      · simp only [phase2Go, hk, if_true] at herr
        rcases List.mem_cons.mp hq with hq | hq
        · rw [hq]; rfl
        · exact ih off herr q hq
      · simp only [phase2Go, hk, if_false] at herr
        rcases List.mem_cons.mp hq with hq | hq
        · rw [hq]; rfl
        · exact ih (off + (ls.filter nonblank).length) herr q hq

theorem phase2Go_outputs_perm (rng : Nat → Nat) (n : Nat) (dir nm : String) :
    ∀ (pairs : List (Nat × Option (List String))) (off : Nat),
      (phase2Go rng n dir nm off pairs).err = none →
      List.Perm (((phase2Go rng n dir nm off pairs).outputs.map Prod.snd).flatten)
        ((pairs.map (fun q => (q.2.getD []).filter nonblank)).flatten) := by
  intro pairs
  induction pairs with
  | nil => intro off _; exact List.Perm.refl _
  | cons hd rest ih =>
    intro off herr
    obtain ⟨i, o⟩ := hd
    cases o with
    | none => simp [phase2Go] at herr
    | some ls =>
      by_cases hk : (ls.filter nonblank).isEmpty
      · simp only [phase2Go, hk, if_true] at herr ⊢
        have hnil : ls.filter nonblank = [] := List.isEmpty_iff.mp hk
        simp only [List.map_cons, List.flatten_cons, Option.getD_some, hnil,
          List.nil_append]
        exact ih off herr
      · simp only [phase2Go, hk, if_false] at herr ⊢
        simp only [List.map_cons, List.flatten_cons, Option.getD_some]
        exact List.Perm.append (shuffleLines_perm rng off (ls.filter nonblank))
          (ih (off + (ls.filter nonblank).length) herr)

theorem phase2Go_deleted_mem (rng : Nat → Nat) (n : Nat) (dir nm : String) :
    ∀ (pairs : List (Nat × Option (List String))) (off : Nat),
      (phase2Go rng n dir nm off pairs).err = none →
      (∀ q ∈ pairs, ∀ ls, q.2 = some ls → ls.filter nonblank ≠ []) →
      ∀ q ∈ pairs, Ev.deleted q.1 ∈ (phase2Go rng n dir nm off pairs).trace := by
  intro pairs
  induction pairs with
  | nil => intro off _ _ q hq; simp at hq
  | cons hd rest ih =>
    intro off herr hne q hq
    obtain ⟨i, o⟩ := hd
    cases o with
    | none => simp [phase2Go] at herr
    | some ls =>
      have hkne : ls.filter nonblank ≠ [] := hne (i, some ls) (by simp) ls rfl
      have hk : (ls.filter nonblank).isEmpty = false := by
        simp [List.isEmpty_iff, hkne]
      simp only [phase2Go, hk, if_false] at herr ⊢
      rcases List.mem_cons.mp hq with hq | hq
      · rw [hq]; simp
      · have := ih (off + (ls.filter nonblank).length) herr
          (fun q hq => hne q (by simp [hq])) q hq
        simp [this]

theorem phase2Go_output_names (rng : Nat → Nat) (n : Nat) (dir nm : String) :
    ∀ (pairs : List (Nat × Option (List String))) (off : Nat),
      ∀ o ∈ (phase2Go rng n dir nm off pairs).outputs,
        ∃ i ls, (i, some ls) ∈ pairs ∧ ls.filter nonblank ≠ [] ∧
          o.1 = joinPath dir (outputFileName n nm i) := by
  intro pairs
  induction pairs with
  | nil => intro off o ho; simp [phase2Go] at ho
  | cons hd rest ih =>
    intro off o ho
    obtain ⟨i, oo⟩ := hd
    cases oo with
    | none => simp [phase2Go] at ho
    | some ls =>
      by_cases hk : (ls.filter nonblank).isEmpty
      · simp only [phase2Go, hk, if_true] at ho
        obtain ⟨j, ms, hmem, hne, hname⟩ := ih off o ho
        exact ⟨j, ms, by simp [hmem], hne, hname⟩
      · simp only [phase2Go, hk, if_false] at ho
        rcases List.mem_cons.mp ho with ho | ho
        · refine ⟨i, ls, by simp, ?_, ?_⟩
          · intro hnil
            exact hk (List.isEmpty_iff.mpr hnil)
          · rw [ho]
        · obtain ⟨j, ms, hmem, hne, hname⟩ := ih (off + (ls.filter nonblank).length) o ho
          exact ⟨j, ms, by simp [hmem], hne, hname⟩

theorem delAfterFlush_phase2Go (rng : Nat → Nat) (n : Nat) (dir nm : String) :
    ∀ (pairs : List (Nat × Option (List String))) (off : Nat) (i : Nat),
      delAfterFlush i (phase2Go rng n dir nm off pairs).trace = true := by
  intro pairs
  induction pairs with
  | nil => intro off i; rfl
  | cons hd rest ih =>
    intro off i
    obtain ⟨j, o⟩ := hd
    cases o with
    | none => simp [phase2Go, delAfterFlush]
    | some ls =>
      by_cases hk : (ls.filter nonblank).isEmpty
      · simp only [phase2Go, hk, if_true]
        simp only [delAfterFlush]
        exact ih off i
      · simp only [phase2Go, hk, if_false]
        by_cases hij : j = i
        · simp [delAfterFlush, hij]
        · simp only [delAfterFlush, if_neg hij]
          exact ih (off + (ls.filter nonblank).length) i

theorem phase_1_distribute_ok (rng : Nat → Nat) (fs : String → FileData)
    (paths : List String) (n : Nat) (temps : List (Option (List String)))
    (h : phase_1_distribute rng fs paths n = Except.ok temps) :
    (sortPaths paths).all (fun p => (readLines fs p).isSome) = true ∧
    temps = (List.range n).map (fun i =>
      if (bucketLines (phase1Assigned rng fs paths n) i).isEmpty then none
      else some (bucketLines (phase1Assigned rng fs paths n) i)) := by
  by_cases hall : (sortPaths paths).all (fun p => (readLines fs p).isSome) = true
  · refine ⟨hall, ?_⟩
    unfold phase_1_distribute at h
    rw [if_pos hall] at h
    exact (Except.ok.inj h).symm
  · unfold phase_1_distribute at h
    rw [if_neg hall] at h
    cases h

theorem phase1Assigned_map_snd (rng : Nat → Nat) (fs : String → FileData)
    (paths : List String) (n : Nat) :
    (phase1Assigned rng fs paths n).map Prod.snd = phase1Kept fs paths := by
  unfold phase1Assigned
  rw [List.map_map]
  have hc : (Prod.snd ∘ fun kl : Nat × String => (rng kl.1 % n, kl.2)) = Prod.snd := by
    funext kl
    rfl
  rw [hc, List.enum_map_snd]

theorem phase1Assigned_fst_lt (rng : Nat → Nat) (fs : String → FileData)
    (paths : List String) (n : Nat) (hn : 0 < n) :
    ∀ p ∈ phase1Assigned rng fs paths n, p.1 < n := by
  intro p hp
  unfold phase1Assigned at hp
  obtain ⟨kl, _, hkl⟩ := List.mem_map.mp hp
  rw [← hkl]
  exact Nat.mod_lt _ hn

theorem mem_bucketLines_nonblank (rng : Nat → Nat) (fs : String → FileData)
    (paths : List String) (n i : Nat) :
    ∀ x ∈ bucketLines (phase1Assigned rng fs paths n) i, nonblank x = true := by
  intro x hx
  unfold bucketLines at hx
  obtain ⟨p, hp, hpx⟩ := List.mem_filterMap.mp hx
  have hx2 : x ∈ (phase1Assigned rng fs paths n).map Prod.snd := by
    by_cases hpi : p.1 = i
    · rw [if_pos hpi] at hpx
      exact List.mem_map.mpr ⟨p, hp, Option.some.inj hpx⟩
    · rw [if_neg hpi] at hpx
      cases hpx
  rw [phase1Assigned_map_snd] at hx2
  exact List.of_mem_filter hx2

theorem getD_if_isEmpty (ls : List String) :
    (if ls.isEmpty then none else (some ls : Option (List String))).getD [] = ls := by
  by_cases h : ls.isEmpty
  · rw [if_pos h, List.isEmpty_iff.mp h]
    rfl
  · rw [if_neg h]
    rfl

theorem flatten_map_roundRobin_perm (cs : List (List (List String))) :
    List.Perm ((cs.map roundRobin).flatten) ((cs.map List.flatten).flatten) := by
  induction cs with
  | nil => exact List.Perm.refl _
  | cons c rest ih =>
    simp only [List.map_cons, List.flatten_cons]
    exact List.Perm.append (roundRobin_perm c) ih

theorem flatten_map_flatten {α : Type} (cs : List (List (List α))) :
    (cs.map List.flatten).flatten = cs.flatten.flatten := by
  induction cs with
  | nil => rfl
  | cons c rest ih => simp [List.flatten_append, ih]

theorem phase1Arrival_perm (fs : String → FileData) (paths : List String) :
    List.Perm (phase1Arrival fs paths)
      (((sortPaths paths).map (fun p => (readLines fs p).getD [])).flatten) := by
  unfold phase1Arrival
  have h1 := flatten_map_roundRobin_perm
    (chunksOf MAX_OPEN_INPUT_FILES ((sortPaths paths).map (fun p => (readLines fs p).getD [])))
  rw [flatten_map_flatten, flatten_chunksOf] at h1
  exact h1

theorem phase1Kept_perm_inputs (fs : String → FileData) (paths : List String) :
    List.Perm (phase1Kept fs paths)
      (((paths.map (fun p => (readLines fs p).getD [])).flatten).filter nonblank) := by
  unfold phase1Kept
  have ha := (phase1Arrival_perm fs paths).filter nonblank
  have hs : List.Perm ((sortPaths paths).map (fun p => (readLines fs p).getD []))
      (paths.map fun p => (readLines fs p).getD []) := (sortPaths_perm paths).map _
  exact ha.trans (hs.flatten.filter nonblank)

theorem estimate_eq_sum (fs : String → FileData) :
    ∀ (paths : List String) (a : Nat),
      paths.foldl (fun acc p => acc + (fs p).size) a = a + (paths.map (fun p => (fs p).size)).sum := by
  intro paths
  induction paths with
  | nil => intro a; simp
  | cons p rest ih =>
    intro a
    simp only [List.foldl_cons, List.map_cons, List.sum_cons, ih]
    omega

theorem estimated_num_files_ceil (total m : Nat) (hm : 0 < m) :
    1 ≤ estimated_num_files total m ∧
    total ≤ m * estimated_num_files total m ∧
    ∀ k, 1 ≤ k → total ≤ m * k → estimated_num_files total m ≤ k := by
  have hqr : m * (total / m) + total % m = total := Nat.div_add_mod total m
  have hr : total % m < m := Nat.mod_lt _ hm
  have hd : m * (total / m + 1) = m * (total / m) + m := by ring
  by_cases h0 : total % m = 0
  · have hc : (total + m - 1) / m = total / m := by
      have hx : total + m - 1 = m * (total / m) + (m - 1) := by omega
      have hsmall : (m - 1) / m = 0 := Nat.div_eq_of_lt (by omega)
      rw [hx, Nat.mul_add_div hm, hsmall]
      omega
    by_cases hq : total / m = 0
    · have hn1 : estimated_num_files total m = 1 := by
        unfold estimated_num_files
        rw [hc, hq]
        decide
      rw [hn1]
      have h00 : m * (total / m) = 0 := by
        rw [hq]
        ring
      have htot : total ≤ m * 1 := by omega
      exact ⟨Nat.le_refl 1, htot, fun k hk _ => hk⟩
    · have hn1 : estimated_num_files total m = total / m := by
        unfold estimated_num_files
        rw [hc]
        exact Nat.max_eq_left (Nat.pos_of_ne_zero hq)
      rw [hn1]
      have heq : total = m * (total / m) :=
        (Nat.mul_div_cancel' (Nat.dvd_of_mod_eq_zero h0)).symm
      refine ⟨Nat.pos_of_ne_zero hq, heq.le, ?_⟩
      intro k hk hkle
      have hq2 : m * (total / m) ≤ m * k := by omega
      exact Nat.le_of_mul_le_mul_left hq2 hm
  · have hc : (total + m - 1) / m = total / m + 1 := by
      have hx : total + m - 1 = m * (total / m + 1) + (total % m - 1) := by omega
      have hsmall : (total % m - 1) / m = 0 := Nat.div_eq_of_lt (by omega)
      rw [hx, Nat.mul_add_div hm, hsmall]
    have hn1 : estimated_num_files total m = total / m + 1 := by
      unfold estimated_num_files
      rw [hc]
      exact Nat.max_eq_left (Nat.succ_le_succ (Nat.zero_le _))
    rw [hn1]
    have hle2 : total ≤ m * (total / m + 1) := by
      calc total = m * (total / m) + total % m := hqr.symm
        _ ≤ m * (total / m) + m := by omega
        _ = m * (total / m + 1) := hd.symm
    refine ⟨Nat.succ_le_succ (Nat.zero_le _), hle2, ?_⟩
    intro k hk hkle
    have hq2 : m * (total / m) < m * k := by omega
    have hqk := Nat.lt_of_mul_lt_mul_left hq2
    exact hqk

/-- C4: with a positive configured ceiling, the planned bucket count computed
by Phase 1 (line 167) is exactly `max(1, ceil(total / max_size_bytes))`: it is
at least 1 (even for empty input), it is large enough that
`total ≤ max_size_bytes * bucket_count`, and it is the least such positive
count; and the total estimated size is the sum of the on-disk byte sizes of
the input files (lines 322-329). -/
theorem c4_bucket_count (fs : String → FileData) (paths : List String) (mb : Nat)
    (hmb : 0 < mb) :
    estimate_total_input_size fs paths = (paths.map (fun p => (fs p).size)).sum ∧
    1 ≤ estimated_num_files (estimate_total_input_size fs paths) (max_size_bytes mb) ∧
    estimate_total_input_size fs paths ≤
      max_size_bytes mb *
        estimated_num_files (estimate_total_input_size fs paths) (max_size_bytes mb) ∧
    ∀ k, 1 ≤ k → estimate_total_input_size fs paths ≤ max_size_bytes mb * k →
      estimated_num_files (estimate_total_input_size fs paths) (max_size_bytes mb) ≤ k := by
  have hm : 0 < max_size_bytes mb := by
    unfold max_size_bytes
    positivity
  obtain ⟨h1, h2, h3⟩ :=
    estimated_num_files_ceil (estimate_total_input_size fs paths) (max_size_bytes mb) hm
  refine ⟨?_, h1, h2, h3⟩
  unfold estimate_total_input_size
  have := estimate_eq_sum fs paths 0
  omega

/-- Witness for C4 at a concrete input: ceiling 1 MB, total 2,000,000 bytes. -/
theorem c4_bucket_count_witness :
    estimate_total_input_size exFs ["a.jsonl"] = (["a.jsonl"].map (fun p => (exFs p).size)).sum ∧
    1 ≤ estimated_num_files (estimate_total_input_size exFs ["a.jsonl"]) (max_size_bytes 1) ∧
    estimate_total_input_size exFs ["a.jsonl"] ≤
      max_size_bytes 1 *
        estimated_num_files (estimate_total_input_size exFs ["a.jsonl"]) (max_size_bytes 1) ∧
    ∀ k, 1 ≤ k → estimate_total_input_size exFs ["a.jsonl"] ≤ max_size_bytes 1 * k →
      estimated_num_files (estimate_total_input_size exFs ["a.jsonl"]) (max_size_bytes 1) ≤ k :=
  c4_bucket_count exFs ["a.jsonl"] 1 (by decide)

/-- C10: the run panics exactly when `max_size_mb = 0`: then
`max_size_bytes = 0`, the expression `(total + max_size_bytes - 1) / max_size_bytes`
divides by zero (and for `total = 0` the `usize` subtraction also underflows
in debug builds), and the panic happens before any input is opened; for
`max_size_mb ≥ 1` the bucket-count computation is panic-free. -/
theorem c10_division_panic (rng1 rng2 : Nat → Nat) (fs : String → FileData)
    (cfg : ShuffleConfig) :
    shuffle_jsonl rng1 rng2 fs cfg = RunResult.panicked ↔ cfg.max_size_mb = 0 := by
  constructor
  · intro hpan
    by_contra hmb
    have hm : ¬ max_size_bytes cfg.max_size_mb = 0 := by
      unfold max_size_bytes
      intro h0
      omega
    simp only [shuffle_jsonl] at hpan
    rw [if_neg hm] at hpan
    split at hpan
    · cases hpan
    · split at hpan
      · cases hpan
      · cases hpan
  · intro h0
    simp only [shuffle_jsonl]
    rw [if_pos (by unfold max_size_bytes; rw [h0])]

/-- C8: with a configured seed `s` (a `u64` value), Phase 1's RNG is seeded
with `s` and Phase 2's RNG is a separate stream seeded with
`s.wrapping_add(1)`, which is a deterministic derivation always distinct from
`s`, and equals `s + 1` whenever that does not wrap; the two phases' streams
are the two distinct `stdRng` instances, never one shared instance. -/
theorem c8_rng_seeding (stdRng : Nat → Nat → Nat) (e1 e2 : Nat → Nat)
    (fs : String → FileData) (cfg : ShuffleConfig) (s : Nat)
    (hs : s < u64Size) (hseed : cfg.seed = some s) :
    phase2Seed s ≠ s ∧
    (s + 1 < u64Size → phase2Seed s = s + 1) ∧
    runWithConfig stdRng e1 e2 fs cfg =
      shuffle_jsonl (stdRng s) (stdRng (phase2Seed s)) fs cfg := by
  have hu : u64Size = 18446744073709551616 := by
    unfold u64Size
    norm_num
  refine ⟨?_, ?_, ?_⟩
  · unfold phase2Seed
    by_cases h : s + 1 < u64Size
    · rw [Nat.mod_eq_of_lt h]
      omega
    · have hs1 : s + 1 = u64Size := by omega
      rw [hs1, Nat.mod_self]
      omega
  · intro h
    unfold phase2Seed
    rw [Nat.mod_eq_of_lt h]
  · unfold runWithConfig
    rw [hseed]
    show shuffle_jsonl (stdRng (s % u64Size)) (stdRng (phase2Seed s)) fs cfg =
      shuffle_jsonl (stdRng s) (stdRng (phase2Seed s)) fs cfg
    rw [Nat.mod_eq_of_lt hs]

/-- Witness for C8 at the concrete seed 7 of `exCfg`. -/
theorem c8_rng_seeding_witness :
    phase2Seed 7 ≠ 7 ∧
    (7 + 1 < u64Size → phase2Seed 7 = 7 + 1) ∧
    runWithConfig (fun _ _ => 0) rngZero rngZero exFs exCfg =
      shuffle_jsonl ((fun _ _ => (0:Nat)) 7) ((fun _ _ => (0:Nat)) (phase2Seed 7)) exFs exCfg :=
  c8_rng_seeding (fun _ _ => 0) rngZero rngZero exFs exCfg 7
    (by norm_num [u64Size]) rfl

theorem enum_map_comp {α β : Type} (g : α → β) (l : List α) :
    l.enum.map (fun q => g q.2) = l.map g := by
  have h1 : l.enum.map (fun q => g q.2) = (l.enum.map Prod.snd).map g := by
    rw [List.map_map]
    rfl
  rw [h1, List.enum_map_snd]

/-- C1: for every successful run, the multiset of lines across all written
output files equals the multiset of non-blank-after-trim lines across all
input files: no line is created, lost, or duplicated, and duplicates keep
their multiplicity. -/
theorem c1_line_conservation (rng1 rng2 : Nat → Nat) (fs : String → FileData)
    (cfg : ShuffleConfig) (outs : List (String × List String))
    (h : shuffle_jsonl rng1 rng2 fs cfg = RunResult.ok outs) :
    ((outs.map Prod.snd).flatten : Multiset String) =
      (((cfg.input_files.map (fun p => (readLines fs p).getD [])).flatten.filter nonblank :
        List String) : Multiset String) := by
  rw [Multiset.coe_eq_coe]
  simp only [shuffle_jsonl] at h
  by_cases hm : max_size_bytes cfg.max_size_mb = 0
  · rw [if_pos hm] at h
    cases h
  · rw [if_neg hm] at h
    have hnpos : 0 < estimated_num_files (estimate_total_input_size fs cfg.input_files)
        (max_size_bytes cfg.max_size_mb) := by
      unfold estimated_num_files
      exact Nat.lt_of_lt_of_le Nat.zero_lt_one (Nat.le_max_right _ 1)
    set n := estimated_num_files (estimate_total_input_size fs cfg.input_files)
      (max_size_bytes cfg.max_size_mb) with hns
    split at h
    · cases h
    · split at h
      · cases h
      · next temps heq _ herr =>
        have houts : (phase_2_shuffle_and_write rng2 cfg.output_dir
            cfg.output_name temps).outputs = outs := by
          cases h
          rfl
        obtain ⟨hall, htemps⟩ := phase_1_distribute_ok rng1 fs cfg.input_files n temps heq
        have herr2 : (phase2Go rng2 temps.length cfg.output_dir cfg.output_name
            0 temps.enum).err = none := herr
        have hp2 := phase2Go_outputs_perm rng2 temps.length cfg.output_dir cfg.output_name
          temps.enum 0 herr2
        have hx0 : temps.enum.map (fun q => (q.2.getD []).filter nonblank) =
            temps.map (fun o => (o.getD []).filter nonblank) :=
          enum_map_comp (fun o => (o.getD []).filter nonblank) temps
        have hrhs : temps.map (fun o => (o.getD []).filter nonblank) =
            (List.range n).map (fun i =>
              bucketLines (phase1Assigned rng1 fs cfg.input_files n) i) := by
          rw [htemps, List.map_map]
          apply List.map_congr_left
          intro i _
          show ((if (bucketLines (phase1Assigned rng1 fs cfg.input_files n) i).isEmpty
            then none
            else some (bucketLines (phase1Assigned rng1 fs cfg.input_files n) i)).getD
              []).filter nonblank =
            bucketLines (phase1Assigned rng1 fs cfg.input_files n) i
          rw [getD_if_isEmpty]
          exact List.filter_eq_self.mpr
            (fun x hx => mem_bucketLines_nonblank rng1 fs cfg.input_files n i x hx)
        have houts2 : (phase2Go rng2 temps.length cfg.output_dir cfg.output_name
            0 temps.enum).outputs = outs := houts
        rw [houts2, hx0, hrhs] at hp2
        have hfib := flatten_range_bucketLines_perm (phase1Assigned rng1 fs cfg.input_files n)
          n (phase1Assigned_fst_lt rng1 fs cfg.input_files n hnpos)
        have hkept := phase1Kept_perm_inputs fs cfg.input_files
        rw [← phase1Assigned_map_snd rng1 fs cfg.input_files n] at hkept
        exact hp2.trans (hfib.trans hkept)

/-- Witness for C1 on a concrete successful single-bucket run. -/
theorem c1_line_conservation_witness :
    shuffle_jsonl rngZero rngZero exFsSmall exCfgSmall =
      RunResult.ok [(joinPath "out" "shuffled.jsonl", ["x", "y"])] ∧
    ((([(joinPath "out" "shuffled.jsonl", ["x", "y"])].map Prod.snd).flatten : Multiset String) =
      (((exCfgSmall.input_files.map
        (fun p => (readLines exFsSmall p).getD [])).flatten.filter nonblank :
        List String) : Multiset String)) :=
  ⟨by decide, c1_line_conservation rngZero rngZero exFsSmall exCfgSmall _ (by decide)⟩

theorem shuffle_jsonl_input_perm (rng1 rng2 : Nat → Nat) (fs : String → FileData)
    (paths1 paths2 : List String) (dir nm : String) (mb : Nat) (sd : Option Nat)
    (hperm : List.Perm paths1 paths2) :
    shuffle_jsonl rng1 rng2 fs ⟨paths1, dir, nm, mb, sd⟩ =
      shuffle_jsonl rng1 rng2 fs ⟨paths2, dir, nm, mb, sd⟩ := by
  have hsort : sortPaths paths1 = sortPaths paths2 := sortPaths_eq_of_perm _ _ hperm
  have hest : estimate_total_input_size fs paths1 = estimate_total_input_size fs paths2 := by
    unfold estimate_total_input_size
    rw [estimate_eq_sum, estimate_eq_sum, (hperm.map (fun p => (fs p).size)).sum_eq]
  simp only [shuffle_jsonl, phase_1_distribute, phase1Assigned, phase1Kept, phase1Arrival]
  rw [hsort, hest]

/-- C3: for a fixed seed and a fixed set of input files, two independent runs
(even with different ambient entropy sources, which a seeded run never reads)
produce identical output files, same names and same contents; the input paths
are sorted before processing, so any reordering of the input list yields the
same run. -/
theorem c3_fixed_seed_determinism (stdRng : Nat → Nat → Nat) (e1 e2 f1 f2 : Nat → Nat)
    (fs : String → FileData) (paths1 paths2 : List String) (dir nm : String)
    (mb : Nat) (s : Nat) (hperm : List.Perm paths1 paths2) :
    runWithConfig stdRng e1 e2 fs ⟨paths1, dir, nm, mb, some s⟩ =
      runWithConfig stdRng f1 f2 fs ⟨paths2, dir, nm, mb, some s⟩ := by
  show shuffle_jsonl (stdRng (s % u64Size)) (stdRng (phase2Seed s)) fs
      ⟨paths1, dir, nm, mb, some s⟩ =
    shuffle_jsonl (stdRng (s % u64Size)) (stdRng (phase2Seed s)) fs
      ⟨paths2, dir, nm, mb, some s⟩
  exact shuffle_jsonl_input_perm _ _ fs paths1 paths2 dir nm mb (some s) hperm

/-- Witness for C3: the same two files listed in either order, seed 7. -/
theorem c3_fixed_seed_determinism_witness :
    runWithConfig (fun _ _ => 0) rngZero rngZero exFsSmall
      ⟨["b.jsonl", "a.jsonl"], "out", "shuffled", 1, some 7⟩ =
    runWithConfig (fun _ _ => 0) rngZero rngZero exFsSmall
      ⟨["a.jsonl", "b.jsonl"], "out", "shuffled", 1, some 7⟩ :=
  c3_fixed_seed_determinism (fun _ _ => 0) rngZero rngZero rngZero rngZero exFsSmall
    ["b.jsonl", "a.jsonl"] ["a.jsonl", "b.jsonl"] "out" "shuffled" 1 7 (by decide)

/-- C9: in every Phase-2 trace, a bucket's temp file deletion event can only
occur after that bucket's output file has been flushed: no `deleted i`
precedes the first `flushed i`. -/
theorem c9_delete_only_after_flush (rng : Nat → Nat) (dir nm : String)
    (temps : List (Option (List String))) (i : Nat) :
    delAfterFlush i (phase_2_shuffle_and_write rng dir nm temps).trace = true :=
  delAfterFlush_phase2Go rng temps.length dir nm temps.enum 0 i

/-- C2 (code bug): with bucket count 2 and a single non-blank line, bucket 1
receives zero lines, its temp file is never created, and Phase 2's
`File::open` on it fails: the run returns an I/O error instead of
succeeding with at most `bucket_count` outputs. -/
theorem c2_empty_bucket_error :
    estimated_num_files (estimate_total_input_size exFs exCfg.input_files)
      (max_size_bytes exCfg.max_size_mb) = 2 ∧
    (phase1Kept exFs exCfg.input_files).length = 1 ∧
    shuffle_jsonl rngZero rngZero exFs exCfg =
      RunResult.ioError ("No such file or directory: " ++ tempPath "out" "shuffled" 1) := by
  refine ⟨by decide, by decide, by decide⟩

/-- The C5 claim as stated: once Phase 1 completes, every bucket's temporary
storage has been created. -/
def ClaimC5AllBucketsCreated : Prop :=
  ∀ (rng : Nat → Nat) (fs : String → FileData) (paths : List String) (n : Nat)
    (temps : List (Option (List String))),
    phase_1_distribute rng fs paths n = Except.ok temps →
    ∀ i, i < n → (temps.getD i none).isSome = true

/-- Counterexample to C5 as stated: in the 2-bucket run over `exFs`, Phase 1
completes, but bucket 1 received no line, so its temp storage was never
created. -/
theorem c5_counterexample : ¬ ClaimC5AllBucketsCreated := by
  intro hclaim
  have h := hclaim rngZero exFs exCfg.input_files 2 [some ["x"], none] (by rfl) 1
    (by decide)
  exact absurd h (by decide)

theorem phase1_temps_getD (rng : Nat → Nat) (fs : String → FileData)
    (paths : List String) (n : Nat) (temps : List (Option (List String)))
    (h : phase_1_distribute rng fs paths n = Except.ok temps) (i : Nat) (ls : List String)
    (hi : temps.getD i none = some ls) :
    ls = bucketLines (phase1Assigned rng fs paths n) i ∧ ls ≠ [] := by
  obtain ⟨-, htemps⟩ := phase_1_distribute_ok rng fs paths n temps h
  rw [htemps, List.getD_eq_getElem?_getD, List.getElem?_map] at hi
  by_cases hlt : i < n
  · rw [List.getElem?_range hlt] at hi
    simp only [Option.map_some', Option.getD_some] at hi
    by_cases hemp : (bucketLines (phase1Assigned rng fs paths n) i).isEmpty
    · rw [if_pos hemp] at hi
      cases hi
    · rw [if_neg hemp] at hi
      refine ⟨(Option.some.inj hi).symm, ?_⟩
      rw [← (Option.some.inj hi)]
      intro hnil
      exact hemp (List.isEmpty_iff.mpr hnil)
  · rw [List.getElem?_eq_none (by simpa using Nat.le_of_not_lt hlt)] at hi
    cases hi

/-- C5 (amended): temp-file paths are computed for all buckets up front, but a
bucket's storage is created only by the first flush that writes lines to it,
so a bucket that received no line has no temp storage at the end of Phase 1;
every created temp file holds at least one line and only non-blank lines, and
whenever Phase 2 completes without error, every bucket's temp file has been
deleted by the end of Phase 2. -/
theorem c5_temp_lifecycle (rng1 rng2 : Nat → Nat) (fs : String → FileData)
    (paths : List String) (n : Nat) (dir nm : String)
    (temps : List (Option (List String)))
    (h1 : phase_1_distribute rng1 fs paths n = Except.ok temps) :
    (∀ i ls, temps.getD i none = some ls →
      ls ≠ [] ∧ ∀ x ∈ ls, nonblank x = true) ∧
    ((phase_2_shuffle_and_write rng2 dir nm temps).err = none →
      ∀ i, i < temps.length →
        Ev.deleted i ∈ (phase_2_shuffle_and_write rng2 dir nm temps).trace) := by
  constructor
  · intro i ls hi
    obtain ⟨hbl, hne⟩ := phase1_temps_getD rng1 fs paths n temps h1 i ls hi
    refine ⟨hne, fun x hx => ?_⟩
    rw [hbl] at hx
    exact mem_bucketLines_nonblank rng1 fs paths n i x hx
  · intro herr i hilen
    have herr2 : (phase2Go rng2 temps.length dir nm 0 temps.enum).err = none := herr
    have hnef : ∀ q ∈ temps.enum, ∀ ls, q.2 = some ls → ls.filter nonblank ≠ [] := by
      intro q hq ls hls
      have hgd : temps.getD q.1 none = some ls := by
        have hg := List.mem_enum_iff_getElem?.mp hq
        rw [List.getD_eq_getElem?_getD, hg, hls]
        rfl
      obtain ⟨hbl, hne⟩ := phase1_temps_getD rng1 fs paths n temps h1 q.1 ls hgd
      have hfilt : ls.filter nonblank = ls := by
        apply List.filter_eq_self.mpr
        intro x hx
        rw [hbl] at hx
        exact mem_bucketLines_nonblank rng1 fs paths n q.1 x hx
      rw [hfilt]
      exact hne
    have hdel := phase2Go_deleted_mem rng2 temps.length dir nm temps.enum 0 herr2 hnef
    have hienum : i < temps.enum.length := by
      simpa using hilen
    have hg : (temps.enum)[i] = (i, temps[i]) := List.getElem_enum temps i hienum
    have hmem : (i, temps[i]) ∈ temps.enum := by
      rw [← hg]
      exact List.getElem_mem hienum
    have hres := hdel (i, temps[i]) hmem
    exact hres

/-- Witness for C5 (amended) on the concrete single-bucket run. -/
theorem c5_temp_lifecycle_witness :
    (∀ i ls, ([some ["x", "y"]] : List (Option (List String))).getD i none = some ls →
      ls ≠ [] ∧ ∀ x ∈ ls, nonblank x = true) ∧
    ((phase_2_shuffle_and_write rngZero "out" "shuffled" [some ["x", "y"]]).err = none →
      ∀ i, i < ([some ["x", "y"]] : List (Option (List String))).length →
        Ev.deleted i ∈ (phase_2_shuffle_and_write rngZero "out" "shuffled"
          [some ["x", "y"]]).trace) :=
  c5_temp_lifecycle rngZero rngZero exFsSmall exCfgSmall.input_files 1 "out" "shuffled"
    [some ["x", "y"]] (by rfl)

/-- Counterexample to C6 as stated: the `exFs` run maps its input to exactly
one non-empty bucket (bucket 0 of 2), yet the single emitted output file is
named with the `_part_0001` suffix, not the bare base name. -/
theorem c6_counterexample :
    phase_1_distribute rngZero exFs exCfg.input_files 2 = Except.ok [some ["x"], none] ∧
    (([some ["x"], none] : List (Option (List String))).filterMap id).length = 1 ∧
    ((phase_2_shuffle_and_write rngZero "out" "shuffled" [some ["x"], none]).outputs.map
      Prod.fst) = [joinPath "out" ("shuffled" ++ "_part_" ++ pad4 1 ++ ".jsonl")] ∧
    joinPath "out" ("shuffled" ++ "_part_" ++ pad4 1 ++ ".jsonl") ≠
      joinPath "out" ("shuffled" ++ ".jsonl") := by
  refine ⟨by rfl, by decide, by decide, by decide⟩

/-- C6 (amended): the naming rule is keyed to the planned bucket count, not to
the number of non-empty buckets: every emitted output file takes the bare base
name when the planned bucket count is 1, and otherwise the base name suffixed
with the 1-based zero-padded original index of the non-empty bucket it came
from (`outputFileName`); gaps in part numbers could only come from skipped
empty middle buckets, which in this code abort the run instead. -/
theorem c6_output_naming (rng : Nat → Nat) (dir nm : String)
    (temps : List (Option (List String))) :
    ∀ o ∈ (phase_2_shuffle_and_write rng dir nm temps).outputs,
      ∃ i ls, temps.getD i none = some ls ∧ ls.filter nonblank ≠ [] ∧
        o.1 = joinPath dir (outputFileName temps.length nm i) := by
  intro o ho
  obtain ⟨i, ls, hmem, hne, hname⟩ := phase2Go_output_names rng temps.length dir nm
    temps.enum 0 o ho
  refine ⟨i, ls, ?_, hne, hname⟩
  have hg := List.mk_mem_enum_iff_getElem?.mp hmem
  rw [List.getD_eq_getElem?_getD, hg]
  rfl

/-- Witness for C6 (amended) on the concrete single-bucket run. -/
theorem c6_output_naming_witness :
    (joinPath "out" ("shuffled" ++ ".jsonl"), ["x", "y"]) ∈
      (phase_2_shuffle_and_write rngZero "out" "shuffled" [some ["x", "y"]]).outputs ∧
    ∃ i ls, ([some ["x", "y"]] : List (Option (List String))).getD i none = some ls ∧
      ls.filter nonblank ≠ [] ∧
      (joinPath "out" ("shuffled" ++ ".jsonl"), ["x", "y"]).1 =
        joinPath "out" (outputFileName ([some ["x", "y"]] :
          List (Option (List String))).length "shuffled" i) :=
  ⟨by decide, c6_output_naming rngZero "out" "shuffled" [some ["x", "y"]]
    (joinPath "out" ("shuffled" ++ ".jsonl"), ["x", "y"]) (by decide)⟩

/-- C7 counterexample: paths whose name ends in `.gz` but not in the
spec-claimed `.jsonl.gz` suffix are nevertheless routed through the gzip
decoder; detection reads only the final extension. -/
theorem c7_counterexample :
    usesGzip "a.gz" = true ∧ specGzDetect "a.gz" = false ∧
    usesGzip "data.txt.gz" = true ∧ specGzDetect "data.txt.gz" = false := by
  refine ⟨by decide, by decide, by decide, by decide⟩

theorem takeWhile_eq_zg (rev : List Char) :
    (rev.takeWhile (fun c => c ≠ '.') = ['z', 'g'] ∧ 3 < rev.length) ↔
    ∃ r2, rev = 'z' :: 'g' :: '.' :: r2 ∧ r2 ≠ [] := by
  constructor
  · rintro ⟨ht, hl⟩
    cases rev with
    | nil => cases ht
    | cons c1 r1 =>
      by_cases hc1 : c1 = '.'
      · rw [List.takeWhile_cons, if_neg (by simp [hc1])] at ht
        cases ht
      · rw [List.takeWhile_cons, if_pos (by simp [hc1])] at ht
        obtain ⟨hc1z, ht1⟩ := List.cons.inj ht
        cases r1 with
        | nil => cases ht1
        | cons c2 r2 =>
          by_cases hc2 : c2 = '.'
          · rw [List.takeWhile_cons, if_neg (by simp [hc2])] at ht1
            cases ht1
          · rw [List.takeWhile_cons, if_pos (by simp [hc2])] at ht1
            obtain ⟨hc2g, ht2⟩ := List.cons.inj ht1
            cases r2 with
            | nil => simp at hl
            | cons c3 r3 =>
              by_cases hc3 : c3 = '.'
              · refine ⟨r3, ?_, ?_⟩
                · rw [hc1z, hc2g, hc3]
                · intro hnil
                  rw [hnil] at hl
                  simp at hl
              · rw [List.takeWhile_cons, if_pos (by simp [hc3])] at ht2
                cases ht2
  · rintro ⟨r2, hrev, hr2⟩
    subst hrev
    constructor
    · rw [List.takeWhile_cons, if_pos (by decide), List.takeWhile_cons, if_pos (by decide),
        List.takeWhile_cons, if_neg (by decide)]
    · have hp := List.length_pos.mpr hr2
      simp only [List.length_cons]
      omega

/-- C7 (amended): the Line Source wraps the reader in the streaming gzip
decoder iff the path's final extension is `gz`, i.e. iff the file name is a
non-empty stem followed by the literal `.gz` — regardless of the configured
record-file extension; and the decision depends only on the path, never on
file content. -/
theorem c7_gz_by_final_extension (fs : String → FileData) (p : String) :
    (usesGzip p = true ↔
      ∃ l, l ≠ [] ∧ (lastComponent p).data = l ++ ['.', 'g', 'z']) ∧
    readLines fs p = (if usesGzip p then (fs p).gunzipLines else some (fs p).plainLines) := by
  refine ⟨?_, rfl⟩
  simp only [usesGzip, fileExtension]
  set name := lastComponent p with hname
  by_cases hguard : name = "." ∨ name = ".."
  · rw [if_pos hguard]
    constructor
    · intro h
      exact absurd h (by decide)
    · rintro ⟨l, hl, hcs⟩
      exfalso
      have hlp := List.length_pos.mpr hl
      have h3 : (['.', 'g', 'z'] : List Char).length = 3 := rfl
      rcases hguard with hg | hg
      · rw [hg] at hcs
        have hlen := congrArg List.length hcs
        rw [List.length_append, h3] at hlen
        have h1 : (".".data).length = 1 := rfl
        rw [h1] at hlen
        omega
      · rw [hg] at hcs
        have hlen := congrArg List.length hcs
        rw [List.length_append, h3] at hlen
        have h1 : ("..".data).length = 2 := rfl
        rw [h1] at hlen
        omega
  · rw [if_neg hguard]
    by_cases hlen : (name.data.reverse.takeWhile (fun c => c ≠ '.')).length + 1 <
        name.data.length
    · rw [if_pos hlen]
      constructor
      · intro h
        have hsome : some (String.mk ((name.data.reverse.takeWhile
            (fun c => c ≠ '.')).reverse)) = some "gz" := eq_of_beq h
        have hmk : String.mk ((name.data.reverse.takeWhile (fun c => c ≠ '.')).reverse) =
            "gz" := Option.some.inj hsome
        have hdata : (name.data.reverse.takeWhile (fun c => c ≠ '.')).reverse =
            ['g', 'z'] := congrArg String.data hmk
        have htw : name.data.reverse.takeWhile (fun c => c ≠ '.') = ['z', 'g'] := by
          have hh := congrArg List.reverse hdata
          simpa using hh
        have h3 : 3 < name.data.reverse.length := by
          rw [List.length_reverse]
          rw [htw] at hlen
          simpa using hlen
        obtain ⟨r2, hr, hr2⟩ := (takeWhile_eq_zg name.data.reverse).mp ⟨htw, h3⟩
        refine ⟨r2.reverse, by simpa using hr2, ?_⟩
        have hrr : name.data = name.data.reverse.reverse := (List.reverse_reverse _).symm
        rw [hrr, hr]
        simp
      · rintro ⟨l, hl, hcs⟩
        have hrev : name.data.reverse = 'z' :: 'g' :: '.' :: l.reverse := by
          rw [hcs]
          simp
        have hzz := (takeWhile_eq_zg name.data.reverse).mpr
          ⟨l.reverse, hrev, by simpa using hl⟩
        rw [hzz.1]
        decide
    · rw [if_neg hlen]
      constructor
      · intro h
        exact absurd h (by decide)
      · rintro ⟨l, hl, hcs⟩
        exfalso
        apply hlen
        have hrev : name.data.reverse = 'z' :: 'g' :: '.' :: l.reverse := by
          rw [hcs]
          simp
        have hzz := (takeWhile_eq_zg name.data.reverse).mpr
          ⟨l.reverse, hrev, by simpa using hl⟩
        rw [hzz.1]
        have hlr := congrArg List.length hrev
        simp only [List.length_reverse, List.length_cons] at hlr
        have hlp := List.length_pos.mpr hl
        simp only [List.length_cons, List.length_nil]
        omega
